import Mathlib

/-!
Verification development for the PaladinPlaybook rulebook scraper
(`scrape_rules.py`).  The core pipeline consists of three pure functions:

* `join_pages`   — concatenates per-page text blocks, inserting `[PAGE i]`
  markers (`"\n\n".join(f"[PAGE {i+1}]\n{p}" ...)`);
* `split_into_sections` — scans the joined document for heading-pattern
  matches (Python `re.finditer` over a fixed case-insensitive pattern),
  partitions content between headings and recovers the page number of the
  nearest preceding marker;
* `make_snippet` / the finishing loop of `process_sport` — decorates each
  section with a stable id and a whitespace-normalized 200-character snippet.

Texts are modelled as `List Char`.  Python's `\s` is modelled by the ASCII
whitespace characters it contains, `\d` by ASCII digits, and `re.IGNORECASE`
by ASCII case-insensitivity (`Char.toLower`); the claims under study only
exercise these.  The heading regex

  `(?:\n|^)\s*(RULE\s+\d+|...|Chapter\s+\d+)[^\n]*`  (IGNORECASE)

is embedded by `tryMatchAt`/`findMatches`: a match can start only at a
newline or at offset 0 (no `re.MULTILINE`); `\s*` is greedy with
backtracking, and since every alternative begins with a non-whitespace
character, the alternative can only fire at the first non-whitespace
position after the anchor; `[^\n]*` then extends the match to the end of
the line.  `re.finditer` yields leftmost non-overlapping matches, resuming
at each match's end — `findMatches` scans positions left to right the same
way.  (At offset 0 with a leading newline Python tries the `\n` branch
first and falls back to `^`; both branches skip to the same first
non-whitespace position, so modelling only the `\n` branch is faithful.)
The scan is written with a fuel parameter equal to the text length so that
it is structurally recursive and kernel-computable; every successful match
consumes at least one character, so this fuel is never exhausted.
-/

namespace Playbook

/-- Python's regex class `\s`, restricted to the ASCII whitespace characters
it contains (space, tab, newline, carriage return, vertical tab, form feed). -/
def isSpace (c : Char) : Bool :=
  c = ' ' || c = '\t' || c = '\n' || c = '\r' || c = '\x0b' || c = '\x0c'

/-- Python's regex class `\d`, restricted to the ASCII digits. -/
def isDigitCh (c : Char) : Bool :=
  decide (48 ≤ c.toNat) && decide (c.toNat ≤ 57)

/-- One character of `full_text.replace("—", " - ").replace("–", "-")`. -/
def normChar (c : Char) : List Char :=
  if c = '—' then [' ', '-', ' '] else if c = '–' then ['-'] else [c]

/-- `full_text.replace("—", " - ").replace("–", "-")` (the second
replacement cannot touch the output of the first, so a single pass is
equivalent). -/
def normalizeDashes : List Char → List Char
  | [] => []
  | c :: cs => normChar c ++ normalizeDashes cs

/-- Case-insensitive literal matching (Python `re.IGNORECASE`, ASCII part):
if `kw` is a prefix of `l` up to case, return the remainder. -/
def dropPrefixCI : List Char → List Char → Option (List Char)
  | [], l => some l
  | _ :: _, [] => none
  | k :: ks, c :: cs => if k.toLower = c.toLower then dropPrefixCI ks cs else none

/-- Regex `\s+` (greedy): requires at least one whitespace character and
consumes the maximal whitespace run. -/
def wsPlus : List Char → Option (List Char)
  | [] => none
  | c :: cs => if isSpace c then some (cs.dropWhile isSpace) else none

/-- Regex `\d+` (greedy): requires at least one digit and consumes the
maximal digit run. -/
def digitsPlus : List Char → Option (List Char)
  | [] => none
  | c :: cs => if isDigitCh c then some (cs.dropWhile isDigitCh) else none

/-- One keyword alternative of the heading pattern: `KW\s+\d+`
(case-insensitive).  Backtracking on `\s+`/`\d+` cannot help, because a
digit is required right after the whitespace run and `]`-like context is
unconstrained, so the greedy reading is exact. -/
def matchKeywordNum (kw l : List Char) : Option (List Char) :=
  match dropPrefixCI kw l with
  | none => none
  | some r =>
    match wsPlus r with
    | none => none
    | some r2 => digitsPlus r2

/-- The alternation of the heading pattern, tried left to right.  The
`RULE/Rule`, `SECTION/Section`, `ARTICLE/Article`, `CHAPTER/Chapter`
duplicates of the source pattern coincide under IGNORECASE and are
represented once. -/
def matchAlt (l : List Char) : Option (List Char) :=
  match matchKeywordNum "RULE".data l with
  | some r => some r
  | none =>
  match matchKeywordNum "SECTION".data l with
  | some r => some r
  | none =>
  match matchKeywordNum "ARTICLE".data l with
  | some r => some r
  | none =>
  match dropPrefixCI "Points of Emphasis".data l with
  | some r => some r
  | none =>
  match dropPrefixCI "Table Reference Sheet".data l with
  | some r => some r
  | none =>
  match dropPrefixCI "Appendix".data l with
  | some r => some r
  | none =>
  match dropPrefixCI "Interpretations".data l with
  | some r => some r
  | none =>
  match dropPrefixCI "Definitions".data l with
  | some r => some r
  | none => matchKeywordNum "CHAPTER".data l

/-- Regex `[^\n]*` (greedy): drop everything up to the next newline. -/
def lineTail (l : List Char) : List Char := l.dropWhile (fun c => !(c == '\n'))

/-- Attempt the heading pattern with the anchor already consumed: `\s*`
skips whitespace, an alternative must match, `[^\n]*` extends to the end of
the line.  Returns the number of characters of `m` consumed. -/
def tryFrom (m : List Char) : Option Nat :=
  match matchAlt (m.dropWhile isSpace) with
  | none => none
  | some rest => some (m.length - (lineTail rest).length)

/-- Attempt a heading match at the current scan position (`l` is the text
from that position; `atStart` records whether the position is offset 0,
where `^` can anchor).  Returns the total match length. -/
def tryMatchAt (l : List Char) (atStart : Bool) : Option Nat :=
  match l with
  | [] => none
  | c :: m =>
    if c = '\n' then (tryFrom m).map (· + 1)
    else if atStart then tryFrom (c :: m) else none

/-- The `re.finditer` scan: try each position left to right; on a match,
record `(start, end)` offsets and resume at the match end.  `fuel` bounds
the number of scan steps; each step consumes at least one character, so
`fuel = text.length` is always sufficient. -/
def goF : Nat → List Char → Nat → Bool → List (Nat × Nat)
  | 0, _, _, _ => []
  | _ + 1, [], _, _ => []
  | fuel + 1, c :: tl, q, atStart =>
    match tryMatchAt (c :: tl) atStart with
    | some len => (q, q + len) :: goF fuel ((c :: tl).drop len) (q + len) false
    | none => goF fuel tl (q + 1) false

/-- All heading matches of the document, as `(start, end)` offset pairs in
document order (`list(re.finditer(heading_pattern, text, re.IGNORECASE))`). -/
def findMatches (text : List Char) : List (Nat × Nat) := goF text.length text 0 true

/-- Leading-whitespace trim. -/
def trimLeft (l : List Char) : List Char := l.dropWhile isSpace

/-- Trailing-whitespace trim. -/
def trimRight (l : List Char) : List Char := (l.reverse.dropWhile isSpace).reverse

/-- Python `str.strip()`. -/
def pyStrip (l : List Char) : List Char := trimRight (trimLeft l)

/-- Worker for `re.sub(r"\s+", " ", s)`: `inRun` records whether the
previous character was part of a whitespace run already replaced. -/
def collapseGo : Bool → List Char → List Char
  | _, [] => []
  | inRun, c :: cs =>
    if isSpace c then
      if inRun then collapseGo true cs else ' ' :: collapseGo true cs
    else c :: collapseGo false cs

/-- `re.sub(r"\s+", " ", s)`: replace every maximal whitespace run by a
single space. -/
def collapseWS (l : List Char) : List Char := collapseGo false l

/-- Python slice `l[a:b]` (clamping, empty when `b ≤ a`). -/
def sliceL (l : List Char) (a b : Nat) : List Char := (l.drop a).take (b - a)

/-- `re.sub(r"\s+", " ", match.group(0).strip()).strip()` — the stored
section title. -/
def titleOf (g : List Char) : List Char := pyStrip (collapseWS (pyStrip g))

/-- The literal `"[PAGE"` searched for by the page-recovery code (written
as an explicit character list; `pageTag_data` below records that it is
exactly `"[PAGE".data`). -/
def pageTag : List Char := ['[', 'P', 'A', 'G', 'E']

/-- Case-sensitive literal matching: if `kw` is a prefix of `l`, return the
remainder. -/
def dropExact : List Char → List Char → Option (List Char)
  | [], l => some l
  | _ :: _, [] => none
  | k :: ks, c :: cs => if c = k then dropExact ks cs else none

/-- `int` applied to a string of ASCII digits. -/
def digitsToNat (ds : List Char) : Nat :=
  ds.foldl (fun a c => 10 * a + (c.toNat - 48)) 0

/-- After `\[PAGE\s+`: the digit group `(\d+)` immediately followed by the
closing `\]`. -/
def digitsBracket (r2 : List Char) : Option Nat :=
  match r2.takeWhile isDigitCh, (r2.dropWhile isDigitCh).head? with
  | [], _ => none
  | d :: ds, some ']' => some (digitsToNat (d :: ds))
  | _ :: _, _ => none

/-- The pattern `\[PAGE\s+(\d+)\]` anchored at the head of `l`; on success
returns the parsed page number.  As with the heading keywords, greedy
`\s+`/`\d+` with the mandatory closing bracket admit no useful
backtracking, so the greedy reading is exact. -/
def parsePageAt (l : List Char) : Option Nat :=
  (dropExact pageTag l).bind fun r => (wsPlus r).bind fun r2 => digitsBracket r2

/-- `re.search(r"\[PAGE\s+(\d+)\]", l)`: leftmost occurrence wins. -/
def searchPage : List Char → Option Nat
  | [] => none
  | c :: cs =>
    match parsePageAt (c :: cs) with
    | some n => some n
    | none => searchPage cs

/-- Does `sub` occur in `l` starting at offset `i`? -/
def occursAtB (sub l : List Char) (i : Nat) : Bool := sub.isPrefixOf (l.drop i)

/-- Scan offsets `i-1, i-2, …, 0` for the last occurrence of `sub`. -/
def rfindAux (sub l : List Char) : Nat → Option Nat
  | 0 => none
  | i + 1 => if occursAtB sub l i then some i else rfindAux sub l i

/-- Python `l.rfind(sub)` (as an `Option`): the greatest offset at which
`sub` occurs in `l`, the occurrence lying entirely inside `l`. -/
def rfindSub (sub l : List Char) : Option Nat := rfindAux sub l (l.length + 1)

/-- Page recovery for a heading match starting at offset `s`:
`text.rfind("[PAGE", 0, s)` followed by
`re.search(r"\[PAGE\s+(\d+)\]", text[p : s+1])`. -/
def pageFor (text : List Char) (s : Nat) : Option Nat :=
  match rfindSub pageTag (text.take s) with
  | none => none
  | some p => searchPage (sliceL text p (s + 1))

/-- A section as produced by `split_into_sections`. -/
structure SectionR where
  title : List Char
  content : List Char
  start_page : Option Nat
deriving DecidableEq

/-- The loop body of `split_into_sections` over the match list: each match
`(s, e)` yields a section whose content runs to the next match's start (or
to the end of the document). -/
def buildItems (text : List Char) : List (Nat × Nat) → List SectionR
  | [] => []
  | (s, e) :: rest =>
    { title := titleOf (sliceL text s e),
      content := pyStrip (sliceL text e (match rest with
        | (s2, _) :: _ => s2
        | [] => text.length)),
      start_page := pageFor text s } :: buildItems text rest

/-- `split_into_sections` from `scrape_rules.py`. -/
def split_into_sections (full_text : List Char) : List SectionR :=
  let text := normalizeDashes full_text
  match findMatches text with
  | [] => [{ title := "Full Document".data, content := text.take 5000, start_page := some 1 }]
  | m :: ms => buildItems text (m :: ms)

/-- `make_snippet` from `scrape_rules.py` (default `n = 200`). -/
def make_snippet (s : List Char) : List Char :=
  let txt := pyStrip (collapseWS s)
  txt.take 200 ++ (if 200 < txt.length then ['…'] else [])

/-- A section after the finishing loop of `process_sport`. -/
structure FinishedR where
  id : List Char
  title : List Char
  content : List Char
  snippet : List Char
  start_page : Option Nat
deriving DecidableEq

/-- The decimal digit characters. -/
def digitChar : Nat → Char
  | 0 => '0' | 1 => '1' | 2 => '2' | 3 => '3' | 4 => '4'
  | 5 => '5' | 6 => '6' | 7 => '7' | 8 => '8' | _ => '9'

/-- Decimal rendering worker (fuel-driven; `fuel = n + 1` suffices since
`n / 10 < n`). -/
def natDecAux : Nat → Nat → List Char
  | 0, _ => []
  | fuel + 1, n =>
    if n < 10 then [digitChar n] else natDecAux fuel (n / 10) ++ [digitChar (n % 10)]

/-- Python `str(n)` for a natural number: standard decimal rendering. -/
def natDecimal (n : Nat) : List Char := natDecAux (n + 1) n

/-- The finishing loop of `process_sport`: `s["id"] = f"{filename}-rule-{i+1}"`,
`s["snippet"] = make_snippet(s.get("content", ""))` (a `start_page` key is
always present already, so the defaulting branch is the identity). -/
def finishGo (pfx : List Char) : Nat → List SectionR → List FinishedR
  | _, [] => []
  | k, s :: rest =>
    { id := pfx ++ "-rule-".data ++ natDecimal k,
      title := s.title,
      content := s.content,
      snippet := make_snippet s.content,
      start_page := s.start_page } :: finishGo pfx (k + 1) rest

/-- The Record Finisher: ids are 1-based in section order. -/
def finishSections (pfx : List Char) (secs : List SectionR) : List FinishedR :=
  finishGo pfx 1 secs

/-- `f"[PAGE {n}]\n{p}"` — one block of `join_pages`. -/
def pageBlock (n : Nat) (p : List Char) : List Char :=
  pageTag ++ ' ' :: (natDecimal n ++ ']' :: '\n' :: p)

/-- The characters of a page block strictly between its opening `[` and its
page text: `PAGE {n}]\n`. -/
def hdrChars (n : Nat) : List Char :=
  'P' :: 'A' :: 'G' :: 'E' :: ' ' :: (natDecimal n ++ [']', '\n'])

/-- `enumerate`: tag each page with its 1-based number. -/
def numberPages : Nat → List (List Char) → List (List Char)
  | _, [] => []
  | i, p :: ps => pageBlock i p :: numberPages (i + 1) ps

/-- `"\n\n".join(...)`. -/
def sepJoin : List (List Char) → List Char
  | [] => []
  | [x] => x
  | x :: y :: rest => x ++ '\n' :: '\n' :: sepJoin (y :: rest)

/-- `join_pages` from `scrape_rules.py`. -/
def join_pages (pages : List (List Char)) : List Char := sepJoin (numberPages 1 pages)

/-- The pure core pipeline for one sport: join, split, finish. -/
def processPure (pages : List (List Char)) (pfx : List Char) : List FinishedR :=
  finishSections pfx (split_into_sections (join_pages pages))

/-! ### Specification-side vocabulary -/

/-- Worker for `words`: `cur` is the reversed current word. -/
def wordsGo (cur : List Char) : List Char → List (List Char)
  | [] => if cur = [] then [] else [cur.reverse]
  | c :: cs =>
    if isSpace c then
      (if cur = [] then wordsGo [] cs else cur.reverse :: wordsGo [] cs)
    else wordsGo (c :: cur) cs

/-- The whitespace-separated words of a text — the "modulo whitespace"
content the spec's reconstruction and snippet clauses speak about. -/
def words (l : List Char) : List (List Char) := wordsGo [] l

/-- Join words with single spaces. -/
def spaceJoin : List (List Char) → List Char
  | [] => []
  | [w] => w
  | w :: v :: rest => w ++ ' ' :: spaceJoin (v :: rest)

/-- Snippet derivation as the specification words it: collapse whitespace
runs to single spaces and trim (= join the words with single spaces),
truncate to 200 characters, append one truncation marker iff the
normalized content exceeded 200 characters. -/
def snippetSpec (c : List Char) : List Char :=
  let t := spaceJoin (words c)
  t.take 200 ++ (if 200 < t.length then ['…'] else [])

/-- The numbers of the well-formed `[PAGE n]` markers contained in a text,
in order of their starting offsets. -/
def markerNums : List Char → List Nat
  | [] => []
  | c :: cs =>
    match parsePageAt (c :: cs) with
    | some n => n :: markerNums cs
    | none => markerNums cs

/-- `pagesInOrder ps l`: the texts `ps` occur in `l`, disjointly and in
order. -/
def pagesInOrder : List (List Char) → List Char → Prop
  | [], _ => True
  | p :: ps, l => ∃ u v, l = u ++ p ++ v ∧ pagesInOrder ps v

/-- Concatenate the sections in order, each heading title together with its
content (newline-separated, as they stood in the document). -/
def sectionsConcat : List SectionR → List Char
  | [] => []
  | s :: rest => s.title ++ '\n' :: (s.content ++ '\n' :: sectionsConcat rest)

/-- Well-formedness of a heading-match list starting at scan offset `q`:
offsets are chained and non-overlapping (`q ≤ s < e ≤ next start`), every
match starts at offset 0 or right at a newline, and ends at a newline or at
the end of the document. -/
def MatchesFrom (T : List Char) : Nat → List (Nat × Nat) → Prop
  | _, [] => True
  | q, (s, e) :: ms =>
    q ≤ s ∧ s < e ∧ e ≤ T.length ∧ (s = 0 ∨ T[s]? = some '\n') ∧
    (e = T.length ∨ T[e]? = some '\n') ∧ MatchesFrom T e ms

/-! ### Concrete documents used by witnesses and counterexamples -/

/-- The document of the specification's worked example. -/
def exC2doc : List Char :=
  "[PAGE 1]\nIntro text.\n\nRULE 1 Scoring\nBody A.\n\nRULE 2 Fouls\nBody B.".data

/-- A document with non-whitespace text before its first heading match. -/
def exC1doc : List Char := "Intro words here.\nRULE 1 A\nBody.".data

/-- A document whose last `"[PAGE"` occurrence before the heading is not a
well-formed marker, although a well-formed `[PAGE 1]` precedes it. -/
def exC4doc : List Char := "[PAGE 1]\nx [PAGE\nRULE 1 T\nbody".data

/-- Markers for pages 1, 2, 3 with the single heading between the page-2
and page-3 markers. -/
def ex123doc : List Char :=
  "[PAGE 1]\nalpha\n\n[PAGE 2]\nbeta\nRULE 7 Offside\nstuff\n\n[PAGE 3]\ngamma".data

/-- Like `exC4doc`, with a different heading keyword. -/
def exC10doc : List Char := "[PAGE 1]\nz [PAGE\nSECTION 2 Q\nbody".data

/-! ### Helper lemmas -/

theorem finishGo_length (pfx : List Char) : ∀ (k : Nat) (secs : List SectionR),
    (finishGo pfx k secs).length = secs.length := by
  intro k secs
  induction secs generalizing k with
  | nil => rfl
  | cons s rest ih => simp [finishGo, ih]

theorem buildItems_length (T : List Char) : ∀ ms : List (Nat × Nat),
    (buildItems T ms).length = ms.length := by
  intro ms
  induction ms with
  | nil => rfl
  | cons m rest ih => obtain ⟨s, e⟩ := m; simp [buildItems, ih]

theorem split_match (t : List Char) :
    split_into_sections t =
      match findMatches (normalizeDashes t) with
      | [] => [{ title := "Full Document".data,
                 content := (normalizeDashes t).take 5000, start_page := some 1 }]
      | m :: ms => buildItems (normalizeDashes t) (m :: ms) := rfl

theorem split_eq_buildItems {t : List Char} {m : Nat × Nat} {ms : List (Nat × Nat)}
    (h : findMatches (normalizeDashes t) = m :: ms) :
    split_into_sections t = buildItems (normalizeDashes t) (m :: ms) := by
  rw [split_match, h]

theorem buildItems_map_page (T : List Char) : ∀ ms : List (Nat × Nat),
    (buildItems T ms).map SectionR.start_page = ms.map (fun m => pageFor T m.1) := by
  intro ms
  induction ms with
  | nil => rfl
  | cons m rest ih => obtain ⟨s, e⟩ := m; simp [buildItems, ih]

theorem buildItems_map_title (T : List Char) : ∀ ms : List (Nat × Nat),
    (buildItems T ms).map SectionR.title
      = ms.map (fun m => titleOf (sliceL T m.1 m.2)) := by
  intro ms
  induction ms with
  | nil => rfl
  | cons m rest ih => obtain ⟨s, e⟩ := m; simp [buildItems, ih]

theorem occursAtB_false_of_ge {sub l : List Char} (hs : sub ≠ []) {q : Nat}
    (h : l.length ≤ q) : occursAtB sub l q = false := by
  unfold occursAtB
  rw [List.drop_eq_nil_of_le h]
  cases sub with
  | nil => exact absurd rfl hs
  | cons a as => rfl

theorem rfindAux_some_spec {sub l : List Char} : ∀ {n p : Nat},
    rfindAux sub l n = some p →
    occursAtB sub l p = true ∧ p < n ∧
      ∀ q, occursAtB sub l q = true → q < n → q ≤ p := by
  intro n
  induction n with
  | zero => intro p h; simp [rfindAux] at h
  | succ m ih =>
    intro p h
    unfold rfindAux at h
    by_cases hc : occursAtB sub l m = true
    · rw [if_pos hc] at h
      injection h with h
      subst h
      exact ⟨hc, Nat.lt_succ_self _, fun q _ hlt => Nat.lt_succ_iff.mp hlt⟩
    · rw [if_neg hc] at h
      obtain ⟨h1, h2, h3⟩ := ih h
      refine ⟨h1, Nat.lt_succ_of_lt h2, fun q hq hlt => ?_⟩
      rcases Nat.lt_succ_iff_lt_or_eq.mp hlt with h4 | h4
      · exact h3 q hq h4
      · exact absurd (h4 ▸ hq) hc

theorem rfindAux_none_spec {sub l : List Char} : ∀ {n : Nat},
    rfindAux sub l n = none → ∀ q, q < n → occursAtB sub l q = false := by
  intro n
  induction n with
  | zero => intro _ q hq; omega
  | succ m ih =>
    intro h q hq
    unfold rfindAux at h
    by_cases hc : occursAtB sub l m = true
    · rw [if_pos hc] at h; cases h
    · rw [if_neg hc] at h
      rcases Nat.lt_succ_iff_lt_or_eq.mp hq with h4 | h4
      · exact ih h q h4
      · subst h4; simpa using hc

theorem rfindSub_some_spec {sub l : List Char} (hs : sub ≠ []) {p : Nat}
    (h : rfindSub sub l = some p) :
    occursAtB sub l p = true ∧ ∀ q, occursAtB sub l q = true → q ≤ p := by
  obtain ⟨h1, _, h3⟩ := rfindAux_some_spec h
  refine ⟨h1, fun q hq => ?_⟩
  by_cases hql : q < l.length + 1
  · exact h3 q hq hql
  · rw [occursAtB_false_of_ge hs (by omega)] at hq; cases hq

theorem trimRight_cons (c : Char) (x : List Char) :
    trimRight (c :: x) =
      if trimRight x = [] then (if isSpace c then [] else [c]) else c :: trimRight x := by
  unfold trimRight
  rw [List.reverse_cons, List.dropWhile_append]
  by_cases h : x.reverse.dropWhile isSpace = []
  · rw [if_pos (by simp [h]), if_pos (by simp [h])]
    by_cases hc : isSpace c
    · simp [List.dropWhile_cons, hc]
    · simp [List.dropWhile_cons, hc]
  · rw [if_neg (by simp [h]), if_neg (by simp [h]), List.reverse_append]
    simp

theorem trimRight_cons_of_nonspace {c : Char} {x : List Char} (h : isSpace c = false) :
    trimRight (c :: x) = c :: trimRight x := by
  rw [trimRight_cons]
  by_cases h2 : trimRight x = []
  · simp [h2, h]
  · simp [h2]

theorem collapseGo_true_head (cs : List Char) :
    collapseGo true cs = [] ∨
      ∃ c cs', collapseGo true cs = c :: cs' ∧ isSpace c = false := by
  induction cs with
  | nil => exact Or.inl rfl
  | cons c cs ih =>
    by_cases hc : isSpace c
    · simpa [collapseGo, hc] using ih
    · exact Or.inr ⟨c, collapseGo false cs, by simp [collapseGo, hc], by simpa using hc⟩

theorem trimLeft_collapse (s : List Char) :
    trimLeft (collapseGo false s) = collapseGo true s := by
  cases s with
  | nil => rfl
  | cons c cs =>
    by_cases hc : isSpace c
    · rw [show collapseGo false (c :: cs) = ' ' :: collapseGo true cs from by
        simp [collapseGo, hc]]
      rw [show collapseGo true (c :: cs) = collapseGo true cs from by simp [collapseGo, hc]]
      unfold trimLeft
      rw [List.dropWhile_cons]
      rw [if_pos (by decide)]
      rcases collapseGo_true_head cs with h | ⟨d, ds, h, hd⟩
      · rw [h]; rfl
      · rw [h, List.dropWhile_cons, if_neg (by simp [hd])]
    · rw [show collapseGo false (c :: cs) = c :: collapseGo false cs from by
        simp [collapseGo, hc]]
      rw [show collapseGo true (c :: cs) = c :: collapseGo false cs from by
        simp [collapseGo, hc]]
      unfold trimLeft
      rw [List.dropWhile_cons, if_neg (by simpa using hc)]

theorem wordsGo_ne_nil : ∀ (cs cur : List Char), cur = [] ∨ cur ≠ [] →
    ∀ w ∈ wordsGo cur cs, w ≠ [] := by
  intro cs
  induction cs with
  | nil =>
    intro cur _ w hw
    by_cases hcur : cur = []
    · simp [wordsGo, hcur] at hw
    · simp only [wordsGo, if_neg hcur, List.mem_singleton] at hw
      subst hw
      simpa using hcur
  | cons c cs ih =>
    intro cur _ w hw
    by_cases hc : isSpace c
    · by_cases hcur : cur = []
      · rw [show wordsGo cur (c :: cs) = wordsGo [] cs from by simp [wordsGo, hc, hcur]] at hw
        exact ih [] (Or.inl rfl) w hw
      · rw [show wordsGo cur (c :: cs) = cur.reverse :: wordsGo [] cs from by
          simp [wordsGo, hc, hcur]] at hw
        rcases List.mem_cons.mp hw with h | h
        · subst h; simpa using hcur
        · exact ih [] (Or.inl rfl) w h
    · rw [show wordsGo cur (c :: cs) = wordsGo (c :: cur) cs from by simp [wordsGo, hc]] at hw
      exact ih (c :: cur) (Or.inr (by simp)) w hw

theorem spaceJoin_eq_nil_iff {ws : List (List Char)} (h : ∀ w ∈ ws, w ≠ []) :
    spaceJoin ws = [] ↔ ws = [] := by
  cases ws with
  | nil => simp [spaceJoin]
  | cons w ws' =>
    cases ws' with
    | nil =>
      simp only [spaceJoin, List.cons_ne_nil, iff_false]
      exact h w (by simp)
    | cons v rest => simp [spaceJoin]

theorem collapse_words_QR : ∀ (N : Nat) (cs : List Char), cs.length ≤ N →
    (trimRight (collapseGo true cs) = spaceJoin (wordsGo [] cs)) ∧
    (∀ cur, cur ≠ [] →
      spaceJoin (wordsGo cur cs) = cur.reverse ++ trimRight (collapseGo false cs)) := by
  intro N
  induction N with
  | zero =>
    intro cs h
    have hnil : cs = [] := List.length_eq_zero.mp (Nat.le_zero.mp h)
    subst hnil
    refine ⟨rfl, fun cur hcur => ?_⟩
    simp [wordsGo, if_neg hcur, spaceJoin, collapseGo, trimRight]
  | succ n ih =>
    intro cs hlen
    constructor
    · cases cs with
      | nil => rfl
      | cons c cs' =>
        have hlen' : cs'.length ≤ n := by simp at hlen; omega
        by_cases hc : isSpace c
        · have hQ := (ih cs' hlen').1
          rw [show collapseGo true (c :: cs') = collapseGo true cs' from by
            simp [collapseGo, hc]]
          rw [show wordsGo [] (c :: cs') = wordsGo [] cs' from by simp [wordsGo, hc]]
          exact hQ
        · have hR := (ih cs' hlen').2 [c] (by simp)
          rw [show collapseGo true (c :: cs') = c :: collapseGo false cs' from by
            simp [collapseGo, hc]]
          rw [trimRight_cons_of_nonspace (by simpa using hc)]
          rw [show wordsGo [] (c :: cs') = wordsGo [c] cs' from by simp [wordsGo, hc]]
          rw [hR]
          simp
    · intro cur hcur
      cases cs with
      | nil =>
        simp [wordsGo, if_neg hcur, spaceJoin, collapseGo, trimRight]
      | cons d ds =>
        have hlen' : ds.length ≤ n := by simp at hlen; omega
        by_cases hd : isSpace d
        · have hQ := (ih ds hlen').1
          rw [show wordsGo cur (d :: ds) = cur.reverse :: wordsGo [] ds from by
            simp [wordsGo, hd, hcur]]
          rw [show collapseGo false (d :: ds) = ' ' :: collapseGo true ds from by
            simp [collapseGo, hd]]
          rw [trimRight_cons, hQ]
          by_cases hw : wordsGo [] ds = []
          · rw [hw]
            simp [spaceJoin, isSpace]
          · obtain ⟨w, ws', hws⟩ := List.exists_cons_of_ne_nil hw
            rw [hws]
            have hne : spaceJoin (w :: ws') ≠ [] := by
              rw [Ne, spaceJoin_eq_nil_iff]
              · simp
              · intro u hu
                exact wordsGo_ne_nil ds [] (Or.inl rfl) u (hws ▸ hu)
            rw [if_neg hne]
            cases ws' with
            | nil => simp [spaceJoin]
            | cons v rest => simp [spaceJoin]
        · have hR := (ih ds hlen').2 (d :: cur) (by simp)
          rw [show wordsGo cur (d :: ds) = wordsGo (d :: cur) ds from by
            simp [wordsGo, hd]]
          rw [show collapseGo false (d :: ds) = d :: collapseGo false ds from by
            simp [collapseGo, hd]]
          rw [hR, trimRight_cons_of_nonspace (by simpa using hd)]
          simp

theorem pyStrip_collapse_eq (s : List Char) :
    pyStrip (collapseWS s) = spaceJoin (words s) := by
  unfold pyStrip collapseWS words
  rw [trimLeft_collapse]
  exact (collapse_words_QR s.length s (Nat.le_refl _)).1

/-- `make_snippet` computes exactly the snippet the specification
describes. -/
theorem make_snippet_eq_spec (s : List Char) : make_snippet s = snippetSpec s := by
  simp only [make_snippet, snippetSpec, pyStrip_collapse_eq]

theorem make_snippet_length (s : List Char) : (make_snippet s).length ≤ 201 := by
  unfold make_snippet
  by_cases h : 200 < (pyStrip (collapseWS s)).length
  · simp only [if_pos h, List.length_append, List.length_take]
    simp
  · simp only [if_neg h, List.length_append, List.length_take]
    simp

theorem finishGo_getElem? (pfx : List Char) : ∀ (secs : List SectionR) (k i : Nat),
    (finishGo pfx k secs)[i]? = (secs[i]?).map (fun s =>
      { id := pfx ++ "-rule-".data ++ natDecimal (k + i), title := s.title,
        content := s.content, snippet := make_snippet s.content,
        start_page := s.start_page }) := by
  intro secs
  induction secs with
  | nil => intro k i; simp [finishGo]
  | cons s rest ih =>
    intro k i
    cases i with
    | zero => simp [finishGo]
    | succ j =>
      simp only [finishGo, List.getElem?_cons_succ]
      rw [ih (k + 1) j, show k + 1 + j = k + (j + 1) from by omega]

theorem finishGo_snippet_le (pfx : List Char) : ∀ (secs : List SectionR) (k : Nat)
    (f : FinishedR), f ∈ finishGo pfx k secs → f.snippet.length ≤ 201 := by
  intro secs
  induction secs with
  | nil => intro k f hf; simp [finishGo] at hf
  | cons s rest ih =>
    intro k f hf
    rcases List.mem_cons.mp hf with h | h
    · subst h; exact make_snippet_length s.content
    · exact ih (k + 1) f h

theorem pageTag_data : pageTag = "[PAGE".data := rfl

theorem digitChar_digit (k : Nat) : isDigitCh (digitChar k) = true := by
  match k with
  | 0 | 1 | 2 | 3 | 4 | 5 | 6 | 7 | 8 => rfl
  | n + 9 => rfl

theorem digitChar_val (k : Nat) (h : k < 10) : (digitChar k).toNat - 48 = k := by
  interval_cases k <;> decide

theorem digitsToNat_append (ds : List Char) (c : Char) :
    digitsToNat (ds ++ [c]) = 10 * digitsToNat ds + (c.toNat - 48) := by
  unfold digitsToNat
  rw [List.foldl_append]
  rfl

theorem natDecAux_correct : ∀ (fuel n : Nat), n < fuel →
    digitsToNat (natDecAux fuel n) = n := by
  intro fuel
  induction fuel with
  | zero => intro n h; omega
  | succ f ih =>
    intro n h
    unfold natDecAux
    by_cases h10 : n < 10
    · rw [if_pos h10]
      have := digitChar_val n h10
      simpa [digitsToNat] using this
    · rw [if_neg h10]
      rw [digitsToNat_append]
      have hdiv : n / 10 < f := by
        have hlt : n / 10 < n := Nat.div_lt_self (by omega) (by omega)
        omega
      rw [ih (n / 10) hdiv, digitChar_val (n % 10) (Nat.mod_lt _ (by omega))]
      omega

theorem natDecimal_correct (n : Nat) : digitsToNat (natDecimal n) = n :=
  natDecAux_correct (n + 1) n (Nat.lt_succ_self n)

theorem natDecAux_digits : ∀ (fuel n : Nat), ∀ c ∈ natDecAux fuel n, isDigitCh c = true := by
  intro fuel
  induction fuel with
  | zero => intro n c hc; simp [natDecAux] at hc
  | succ f ih =>
    intro n c hc
    unfold natDecAux at hc
    by_cases h10 : n < 10
    · rw [if_pos h10] at hc
      simp only [List.mem_singleton] at hc
      subst hc
      exact digitChar_digit n
    · rw [if_neg h10] at hc
      rcases List.mem_append.mp hc with h | h
      · exact ih (n / 10) c h
      · simp only [List.mem_singleton] at h
        subst h
        exact digitChar_digit (n % 10)

theorem natDecimal_digits (n : Nat) : ∀ c ∈ natDecimal n, isDigitCh c = true :=
  natDecAux_digits (n + 1) n

theorem natDecimal_ne_nil (n : Nat) : natDecimal n ≠ [] := by
  show natDecAux (n + 1) n ≠ []
  unfold natDecAux
  by_cases h : n < 10
  · rw [if_pos h]; simp
  · rw [if_neg h]; simp

theorem digit_not_space {c : Char} (h : isDigitCh c = true) : isSpace c = false := by
  have h1 : 48 ≤ c.toNat ∧ c.toNat ≤ 57 := by simpa [isDigitCh] using h
  have hne : ∀ (d : Char), d.toNat < 48 ∨ 57 < d.toNat → decide (c = d) = false := by
    intro d hd
    simp only [decide_eq_false_iff_not]
    rintro rfl
    rcases hd with hd | hd <;> omega
  show (decide (c = ' ') || decide (c = '\t') || decide (c = '\n') || decide (c = '\r') ||
      decide (c = '\x0b') || decide (c = '\x0c')) = false
  rw [hne ' ' (Or.inl (by decide)), hne '\t' (Or.inl (by decide)),
      hne '\n' (Or.inl (by decide)), hne '\r' (Or.inl (by decide)),
      hne '\x0b' (Or.inl (by decide)), hne '\x0c' (Or.inl (by decide))]
  rfl

theorem digit_ne {c d : Char} (h : isDigitCh c = true)
    (hd : d.toNat < 48 ∨ 57 < d.toNat) : c ≠ d := by
  have h1 : 48 ≤ c.toNat ∧ c.toNat ≤ 57 := by simpa [isDigitCh] using h
  rintro rfl
  rcases hd with hd | hd <;> omega

theorem dropExact_self : ∀ (kw r : List Char), dropExact kw (kw ++ r) = some r := by
  intro kw
  induction kw with
  | nil => intro r; rfl
  | cons k ks ih => intro r; simp [dropExact, ih]

theorem dropExact_some : ∀ {kw l r : List Char}, dropExact kw l = some r → l = kw ++ r := by
  intro kw
  induction kw with
  | nil =>
    intro l r h
    injection h with h
  | cons k ks ih =>
    intro l r h
    cases l with
    | nil => exact absurd h (by simp [dropExact])
    | cons c cs =>
      unfold dropExact at h
      by_cases hc : c = k
      · rw [if_pos hc] at h
        subst hc
        rw [List.cons_append, ih h]
      · rw [if_neg hc] at h
        cases h

theorem parse_tag {x : List Char} {n : Nat} (h : parsePageAt x = some n) :
    pageTag.isPrefixOf x = true := by
  unfold parsePageAt at h
  cases he : dropExact pageTag x with
  | none => rw [he] at h; simp at h
  | some r =>
    rw [List.isPrefixOf_iff_prefix, dropExact_some he]
    exact List.prefix_append _ _

theorem parse_none_of_no_tag {x : List Char} (h : pageTag.isPrefixOf x = false) :
    parsePageAt x = none := by
  cases hp : parsePageAt x with
  | none => rfl
  | some n => rw [parse_tag hp] at h; cases h

theorem tag_head {x : List Char} (h : pageTag.isPrefixOf x = true) :
    x.head? = some '[' := by
  rw [List.isPrefixOf_iff_prefix] at h
  obtain ⟨w, hw⟩ := h
  rw [← hw]
  rfl

theorem parse_none_of_head {x : List Char} {c : Char} (hx : x.head? = some c)
    (hc : c ≠ '[') : parsePageAt x = none := by
  cases hp : parsePageAt x with
  | none => rfl
  | some n =>
    have hh := tag_head (parse_tag hp)
    rw [hx] at hh
    injection hh with hh
    exact absurd hh hc

theorem tag_spill : ∀ (a tag v : List Char), '\n' ∉ tag →
    (v = [] ∨ v.head? = some '\n') →
    tag.isPrefixOf (a ++ v) = true → tag.isPrefixOf a = true := by
  intro a
  induction a with
  | nil =>
    intro tag v hnl hv h
    cases tag with
    | nil => rfl
    | cons t ts =>
      exfalso
      rcases hv with rfl | hv
      · simp [List.isPrefixOf] at h
      · cases v with
        | nil => cases hv
        | cons c v' =>
          simp only [List.head?_cons, Option.some.injEq] at hv
          subst hv
          simp only [List.nil_append, List.isPrefixOf, Bool.and_eq_true, beq_iff_eq] at h
          exact hnl (h.1 ▸ List.mem_cons_self t ts)
  | cons x a' ih =>
    intro tag v hnl hv h
    cases tag with
    | nil => rfl
    | cons t ts =>
      simp only [List.cons_append, List.isPrefixOf, Bool.and_eq_true] at h ⊢
      exact ⟨h.1, ih ts v (fun hm => hnl (List.mem_cons_of_mem _ hm)) hv h.2⟩

theorem markerNums_append_skip : ∀ (u v : List Char),
    (∀ q, q < u.length → parsePageAt ((u ++ v).drop q) = none) →
    markerNums (u ++ v) = markerNums v := by
  intro u
  induction u with
  | nil => intro v _; rfl
  | cons c u' ih =>
    intro v h
    have h0 : parsePageAt (c :: (u' ++ v)) = none := h 0 (by simp)
    rw [List.cons_append]
    simp only [markerNums, h0]
    exact ih v (fun q hq => h (q + 1) (by simp; omega))

theorem takeWhile_all_append {p : Char → Bool} : ∀ (u : List Char) (b : Char) (w : List Char),
    (∀ c ∈ u, p c = true) → p b = false →
    (u ++ b :: w).takeWhile p = u ∧ (u ++ b :: w).dropWhile p = b :: w := by
  intro u
  induction u with
  | nil =>
    intro b w _ hb
    constructor
    · simp [List.takeWhile_cons, hb]
    · simp [List.dropWhile_cons, hb]
  | cons x u' ih =>
    intro b w hall hb
    have hx : p x = true := hall x (by simp)
    obtain ⟨ht, hd⟩ := ih b w (fun c hc => hall c (by simp [hc])) hb
    constructor
    · simp [List.takeWhile_cons, hx, ht]
    · simp [List.dropWhile_cons, hx, hd]

theorem parsePageAt_block (n : Nat) (p v : List Char) :
    parsePageAt (pageBlock n p ++ v) = some n := by
  obtain ⟨d, ds, hnd⟩ := List.exists_cons_of_ne_nil (natDecimal_ne_nil n)
  have hdig : ∀ c ∈ d :: ds, isDigitCh c = true := by
    intro c hc
    exact natDecimal_digits n c (hnd ▸ hc)
  have hblock : pageBlock n p ++ v
      = pageTag ++ (' ' :: ((d :: ds) ++ (']' :: '\n' :: (p ++ v)))) := by
    simp [pageBlock, ← hnd, List.append_assoc]
  obtain ⟨ht, hd2⟩ := takeWhile_all_append (d :: ds) ']' ('\n' :: (p ++ v)) hdig (by decide)
  rw [hblock]
  unfold parsePageAt
  simp only [dropExact_self, Option.some_bind]
  rw [show wsPlus (' ' :: ((d :: ds) ++ (']' :: '\n' :: (p ++ v))))
      = some (((d :: ds) ++ (']' :: '\n' :: (p ++ v))).dropWhile isSpace) from rfl]
  simp only [Option.some_bind]
  rw [show ((d :: ds) ++ (']' :: '\n' :: (p ++ v))).dropWhile isSpace
      = (d :: ds) ++ (']' :: '\n' :: (p ++ v)) from by
    rw [List.cons_append, List.dropWhile_cons,
        if_neg (by simp [digit_not_space (hdig d (by simp))])]]
  unfold digitsBracket
  rw [ht, hd2, List.head?_cons]
  show some (digitsToNat (d :: ds)) = some n
  rw [← hnd, natDecimal_correct]

theorem hdrChars_ne_lbrack (n : Nat) : ∀ c ∈ hdrChars n, c ≠ '[' := by
  intro c hc
  simp only [hdrChars, List.mem_cons, List.mem_append, List.not_mem_nil, or_false] at hc
  rcases hc with rfl | rfl | rfl | rfl | rfl | h | rfl | rfl
  · decide
  · decide
  · decide
  · decide
  · decide
  · exact digit_ne (natDecimal_digits n c h) (Or.inr (by decide))
  · decide
  · decide

theorem pageBlock_form (n : Nat) (p v : List Char) :
    pageBlock n p ++ v = '[' :: ((hdrChars n ++ p) ++ v) := by
  simp [pageBlock, pageTag, hdrChars, List.append_assoc]

theorem markerNums_block (n : Nat) (p v : List Char)
    (hp : ∀ q, q < p.length → pageTag.isPrefixOf (p.drop q) = false)
    (hv : v = [] ∨ v.head? = some '\n') :
    markerNums (pageBlock n p ++ v) = n :: markerNums v := by
  have hskip : ∀ q, q < (hdrChars n ++ p).length →
      parsePageAt (((hdrChars n ++ p) ++ v).drop q) = none := by
    intro q hq
    rw [List.append_assoc]
    by_cases hqh : q < (hdrChars n).length
    · have hget : (hdrChars n ++ (p ++ v))[q]? = some ((hdrChars n).get ⟨q, hqh⟩) := by
        rw [List.getElem?_append_left hqh]
        simp
      refine parse_none_of_head (c := (hdrChars n).get ⟨q, hqh⟩) ?_ ?_
      · rw [List.head?_drop]
        exact hget
      · exact hdrChars_ne_lbrack n _ (List.get_mem _ _ hqh)
    · have hj : q - (hdrChars n).length < p.length := by
        rw [List.length_append] at hq
        omega
      rw [show q = (hdrChars n).length + (q - (hdrChars n).length) from by omega,
          List.drop_append, List.drop_append_eq_append_drop,
          show q - (hdrChars n).length - p.length = 0 from by omega, List.drop_zero]
      cases hpre : pageTag.isPrefixOf (p.drop (q - (hdrChars n).length) ++ v) with
      | false => exact parse_none_of_no_tag hpre
      | true =>
        have := tag_spill _ pageTag v (by decide) hv hpre
        rw [hp _ hj] at this
        cases this
  rw [pageBlock_form]
  simp only [markerNums]
  rw [show parsePageAt ('[' :: ((hdrChars n ++ p) ++ v)) = some n from by
    rw [← pageBlock_form]; exact parsePageAt_block n p v]
  show n :: markerNums ((hdrChars n ++ p) ++ v) = n :: markerNums v
  exact congrArg _ (markerNums_append_skip _ _ hskip)

theorem markerNums_nl (x : List Char) : markerNums ('\n' :: x) = markerNums x := by
  simp only [markerNums, parse_none_of_head (x := '\n' :: x) rfl (by decide)]

theorem markerNums_join : ∀ (ps : List (List Char)) (i : Nat),
    (∀ p ∈ ps, ∀ q, q < p.length → pageTag.isPrefixOf (p.drop q) = false) →
    markerNums (sepJoin (numberPages i ps)) = List.range' i ps.length := by
  intro ps
  induction ps with
  | nil => intro i _; rfl
  | cons p ps' ih =>
    intro i h
    have hp := h p (by simp)
    cases ps' with
    | nil =>
      show markerNums (pageBlock i p) = List.range' i 1
      rw [show pageBlock i p = pageBlock i p ++ [] from by simp,
          markerNums_block i p [] hp (Or.inl rfl)]
      simp [markerNums]
    | cons p2 ps2 =>
      show markerNums (pageBlock i p ++
        '\n' :: '\n' :: sepJoin (numberPages (i + 1) (p2 :: ps2))) = _
      rw [markerNums_block i p ('\n' :: '\n' :: sepJoin (numberPages (i + 1) (p2 :: ps2)))
            hp (Or.inr rfl),
          markerNums_nl, markerNums_nl,
          ih (i + 1) (fun pp hpp => h pp (by simp [hpp]))]
      rw [show (p :: p2 :: ps2).length = (p2 :: ps2).length + 1 from rfl,
          List.range'_succ]

theorem pagesInOrder_gen : ∀ (ps : List (List Char)) (i : Nat) (pre : List Char),
    pagesInOrder ps (pre ++ sepJoin (numberPages i ps)) := by
  intro ps
  induction ps with
  | nil => intro i pre; trivial
  | cons p ps' ih =>
    intro i pre
    cases ps' with
    | nil =>
      exact ⟨pre ++ pageTag ++ ' ' :: (natDecimal i ++ [']', '\n']), [],
        by simp [pageBlock, sepJoin, numberPages, List.append_assoc], trivial⟩
    | cons p2 ps2 =>
      exact ⟨pre ++ pageTag ++ ' ' :: (natDecimal i ++ [']', '\n']),
        '\n' :: '\n' :: sepJoin (numberPages (i + 1) (p2 :: ps2)),
        by simp [pageBlock, sepJoin, numberPages, List.append_assoc],
        ih (i + 1) ['\n', '\n']⟩

theorem pagesInOrder_join (ps : List (List Char)) : pagesInOrder ps (join_pages ps) := by
  have h := pagesInOrder_gen ps 1 []
  simpa [join_pages] using h

theorem dropWhile_is_drop (p : Char → Bool) : ∀ l : List Char, ∃ k, l.dropWhile p = l.drop k := by
  intro l
  induction l with
  | nil => exact ⟨0, rfl⟩
  | cons c cs ih =>
    by_cases hc : p c = true
    · obtain ⟨k, hk⟩ := ih
      exact ⟨k + 1, by rw [List.dropWhile_cons, if_pos hc]; exact hk⟩
    · exact ⟨0, by simp [List.dropWhile_cons, hc]⟩

theorem dropWhile_head_fails (p : Char → Bool) : ∀ l : List Char,
    l.dropWhile p = [] ∨ ∃ c t, l.dropWhile p = c :: t ∧ p c = false := by
  intro l
  induction l with
  | nil => exact Or.inl rfl
  | cons c cs ih =>
    by_cases hc : p c = true
    · rw [List.dropWhile_cons, if_pos hc]; exact ih
    · exact Or.inr ⟨c, cs, by rw [List.dropWhile_cons, if_neg (by simp [hc])], by simpa using hc⟩

theorem dropPrefixCI_drop : ∀ {kw l r : List Char},
    dropPrefixCI kw l = some r → r = l.drop kw.length := by
  intro kw
  induction kw with
  | nil =>
    intro l r h
    injection h with h
    rw [h]
    rfl
  | cons k ks ih =>
    intro l r h
    cases l with
    | nil => exact absurd h (by simp [dropPrefixCI])
    | cons c cs =>
      unfold dropPrefixCI at h
      by_cases hc : k.toLower = c.toLower
      · rw [if_pos hc] at h
        exact ih h
      · rw [if_neg hc] at h
        cases h

theorem wsPlus_drop {l r : List Char} (h : wsPlus l = some r) :
    ∃ k, 1 ≤ k ∧ r = l.drop k := by
  cases l with
  | nil => exact absurd h (by simp [wsPlus])
  | cons c cs =>
    simp only [wsPlus] at h
    by_cases hc : isSpace c = true
    · rw [if_pos hc] at h
      injection h with h
      obtain ⟨k, hk⟩ := dropWhile_is_drop isSpace cs
      exact ⟨k + 1, by omega, by rw [← h, hk, List.drop_succ_cons]⟩
    · rw [if_neg (by simp [hc])] at h
      cases h

theorem digitsPlus_drop {l r : List Char} (h : digitsPlus l = some r) :
    ∃ k, 1 ≤ k ∧ r = l.drop k := by
  cases l with
  | nil => exact absurd h (by simp [digitsPlus])
  | cons c cs =>
    simp only [digitsPlus] at h
    by_cases hc : isDigitCh c = true
    · rw [if_pos hc] at h
      injection h with h
      obtain ⟨k, hk⟩ := dropWhile_is_drop isDigitCh cs
      exact ⟨k + 1, by omega, by rw [← h, hk, List.drop_succ_cons]⟩
    · rw [if_neg (by simp [hc])] at h
      cases h

theorem matchKeywordNum_drop {kw l r : List Char} (hkw : kw ≠ [])
    (h : matchKeywordNum kw l = some r) : ∃ k, 1 ≤ k ∧ r = l.drop k := by
  unfold matchKeywordNum at h
  cases h1 : dropPrefixCI kw l with
  | none => simp only [h1] at h; cases h
  | some r1 =>
    simp only [h1] at h
    cases h2 : wsPlus r1 with
    | none => simp only [h2] at h; cases h
    | some r2 =>
      simp only [h2] at h
      obtain ⟨k3, hk3, hr3⟩ := digitsPlus_drop h
      obtain ⟨k2, _, hr2⟩ := wsPlus_drop h2
      have hr1 : r1 = l.drop kw.length := dropPrefixCI_drop h1
      refine ⟨kw.length + k2 + k3, ?_, ?_⟩
      · have := List.length_pos.mpr hkw
        omega
      · rw [hr3, hr2, hr1, List.drop_drop, List.drop_drop, ← Nat.add_assoc]

theorem dropPrefixCI_lit_drop {kw l r : List Char} (hkw : kw ≠ [])
    (h : dropPrefixCI kw l = some r) : ∃ k, 1 ≤ k ∧ r = l.drop k :=
  ⟨kw.length, List.length_pos.mpr hkw, dropPrefixCI_drop h⟩

theorem matchAlt_drop {l r : List Char} (h : matchAlt l = some r) :
    ∃ k, 1 ≤ k ∧ r = l.drop k := by
  unfold matchAlt at h
  cases h1 : matchKeywordNum "RULE".data l with
  | some r1 =>
    simp only [h1] at h
    injection h with h
    exact h ▸ matchKeywordNum_drop (by decide) h1
  | none =>
  simp only [h1] at h
  cases h2 : matchKeywordNum "SECTION".data l with
  | some r1 =>
    simp only [h2] at h
    injection h with h
    exact h ▸ matchKeywordNum_drop (by decide) h2
  | none =>
  simp only [h2] at h
  cases h3 : matchKeywordNum "ARTICLE".data l with
  | some r1 =>
    simp only [h3] at h
    injection h with h
    exact h ▸ matchKeywordNum_drop (by decide) h3
  | none =>
  simp only [h3] at h
  cases h4 : dropPrefixCI "Points of Emphasis".data l with
  | some r1 =>
    simp only [h4] at h
    injection h with h
    exact h ▸ dropPrefixCI_lit_drop (by decide) h4
  | none =>
  simp only [h4] at h
  cases h5 : dropPrefixCI "Table Reference Sheet".data l with
  | some r1 =>
    simp only [h5] at h
    injection h with h
    exact h ▸ dropPrefixCI_lit_drop (by decide) h5
  | none =>
  simp only [h5] at h
  cases h6 : dropPrefixCI "Appendix".data l with
  | some r1 =>
    simp only [h6] at h
    injection h with h
    exact h ▸ dropPrefixCI_lit_drop (by decide) h6
  | none =>
  simp only [h6] at h
  cases h7 : dropPrefixCI "Interpretations".data l with
  | some r1 =>
    simp only [h7] at h
    injection h with h
    exact h ▸ dropPrefixCI_lit_drop (by decide) h7
  | none =>
  simp only [h7] at h
  cases h8 : dropPrefixCI "Definitions".data l with
  | some r1 =>
    simp only [h8] at h
    injection h with h
    exact h ▸ dropPrefixCI_lit_drop (by decide) h8
  | none =>
  simp only [h8] at h
  exact matchKeywordNum_drop (by decide) h

theorem drop_sub_drop (l : List Char) (K : Nat) :
    l.drop (l.length - (l.drop K).length) = l.drop K := by
  rw [List.length_drop]
  by_cases hK : K ≤ l.length
  · rw [show l.length - (l.length - K) = K from by omega]
  · rw [show l.length - (l.length - K) = l.length from by omega,
        List.drop_eq_nil_of_le (by omega), List.drop_eq_nil_of_le (by omega)]

theorem tryFrom_spec {m : List Char} {len : Nat} (h : tryFrom m = some len) :
    1 ≤ len ∧ len ≤ m.length ∧ (m.drop len = [] ∨ (m.drop len).head? = some '\n') := by
  unfold tryFrom at h
  cases hm : matchAlt (m.dropWhile isSpace) with
  | none => rw [hm] at h; cases h
  | some rest =>
    rw [hm] at h
    injection h with h
    obtain ⟨a, ha⟩ := dropWhile_is_drop isSpace m
    obtain ⟨k, hk1, hkr⟩ := matchAlt_drop hm
    obtain ⟨c, hc⟩ := dropWhile_is_drop (fun x => !(x == '\n')) rest
    have hL : lineTail rest = m.drop (a + k + c) := by
      unfold lineTail
      rw [hc, hkr, ha, List.drop_drop, List.drop_drop, ← Nat.add_assoc]
    have hmne : 1 ≤ m.length := by
      rcases m with _ | ⟨x, xs⟩
      · rw [show matchAlt (List.dropWhile isSpace []) = none from by decide] at hm
        cases hm
      · simp
    have hdropeq : m.drop len = lineTail rest := by
      rw [← h, hL, drop_sub_drop]
    refine ⟨?_, ?_, ?_⟩
    · rw [← h, hL, List.length_drop]
      omega
    · rw [← h]
      exact Nat.sub_le _ _
    · rcases dropWhile_head_fails (fun x => !(x == '\n')) rest with h2 | ⟨d, t, h2, hd⟩
      · left
        rw [hdropeq]
        exact h2
      · right
        rw [hdropeq]
        unfold lineTail
        rw [h2]
        simp only [List.head?_cons, Option.some.injEq]
        simpa using hd

theorem tryMatchAt_spec {l : List Char} {b : Bool} {len : Nat}
    (h : tryMatchAt l b = some len) :
    1 ≤ len ∧ len ≤ l.length ∧ (l.drop len = [] ∨ (l.drop len).head? = some '\n') ∧
    (b = false → l.head? = some '\n') := by
  cases l with
  | nil => exact absurd h (by simp [tryMatchAt])
  | cons c m =>
    simp only [tryMatchAt] at h
    by_cases hc : c = '\n'
    · rw [if_pos hc] at h
      cases hf : tryFrom m with
      | none => rw [hf] at h; cases h
      | some k =>
        rw [hf] at h
        simp only [Option.map_some', Option.some.injEq] at h
        obtain ⟨hk1, hk2, hk3⟩ := tryFrom_spec hf
        refine ⟨by omega, by simp only [List.length_cons]; omega, ?_, fun _ => by rw [hc]; rfl⟩
        rw [← h, List.drop_succ_cons]
        exact hk3
    · rw [if_neg hc] at h
      cases b with
      | false => rw [if_neg (by simp)] at h; cases h
      | true =>
        rw [if_pos rfl] at h
        obtain ⟨hk1, hk2, hk3⟩ := tryFrom_spec h
        exact ⟨hk1, hk2, hk3, fun hb => by cases hb⟩

theorem MatchesFrom_mono {T : List Char} : ∀ {ms : List (Nat × Nat)} {q q' : Nat},
    q ≤ q' → MatchesFrom T q' ms → MatchesFrom T q ms := by
  intro ms
  cases ms with
  | nil => intro q q' _ _; trivial
  | cons m rest =>
    obtain ⟨s, e⟩ := m
    intro q q' hle h
    exact ⟨Nat.le_trans hle h.1, h.2⟩

theorem goF_spec (T : List Char) : ∀ (fuel : Nat) (l : List Char) (q : Nat) (b : Bool),
    l = T.drop q → q ≤ T.length → (b = true → q = 0) →
    MatchesFrom T q (goF fuel l q b) := by
  intro fuel
  induction fuel with
  | zero => intro l q b _ _ _; exact trivial
  | succ f ih =>
    intro l q b hl hq hb
    cases l with
    | nil => exact trivial
    | cons c tl =>
      have hlen : tl.length + 1 = T.length - q := by
        have h0 := congrArg List.length hl
        simpa [List.length_drop] using h0
      simp only [goF]
      cases hm : tryMatchAt (c :: tl) b with
      | none =>
        have htl : tl = T.drop (q + 1) := by
          calc tl = (c :: tl).drop 1 := rfl
          _ = (T.drop q).drop 1 := by rw [← hl]
          _ = T.drop (q + 1) := by rw [List.drop_drop]
        exact MatchesFrom_mono (Nat.le_succ q) (ih tl (q + 1) false htl (by omega) (by simp))
      | some len =>
        obtain ⟨h1, h2, h3, h4⟩ := tryMatchAt_spec hm
        have hdrop : (c :: tl).drop len = T.drop (q + len) := by
          rw [hl, List.drop_drop]
        have he : q + len ≤ T.length := by
          simp at h2
          omega
        refine ⟨Nat.le_refl q, by omega, he, ?_, ?_, ?_⟩
        · cases b with
          | true => exact Or.inl (hb rfl)
          | false =>
            right
            have hh := h4 rfl
            rw [← List.head?_drop, ← hl]
            exact hh
        · rcases h3 with h3 | h3
          · left
            rw [hdrop] at h3
            have := List.drop_eq_nil_iff.mp h3
            omega
          · right
            rw [hdrop] at h3
            rw [← List.head?_drop]
            exact h3
        · exact ih ((c :: tl).drop len) (q + len) false hdrop he (by simp)

theorem wordsGo_append_space (c : Char) (hc : isSpace c = true) :
    ∀ (u cur v : List Char),
    wordsGo cur (u ++ c :: v) = wordsGo cur u ++ wordsGo [] v := by
  intro u
  induction u with
  | nil =>
    intro cur v
    by_cases hcur : cur = []
    · simp [wordsGo, hc, hcur]
    · simp [wordsGo, hc, hcur]
  | cons x u' ih =>
    intro cur v
    by_cases hx : isSpace x = true
    · by_cases hcur : cur = []
      · simp [wordsGo, hx, hcur, ih]
      · simp [wordsGo, hx, hcur, ih]
    · simp [wordsGo, hx, ih]

theorem words_cons_space (c : Char) (hc : isSpace c = true) (v : List Char) :
    words (c :: v) = words v := by
  simp [words, wordsGo, hc]

theorem words_append_space (c : Char) (hc : isSpace c = true) (u v : List Char) :
    words (u ++ c :: v) = words u ++ words v :=
  wordsGo_append_space c hc u [] v

theorem words_all_space : ∀ {s : List Char}, (∀ c ∈ s, isSpace c = true) → words s = [] := by
  intro s
  induction s with
  | nil => intro _; rfl
  | cons c cs ih =>
    intro h
    have hc := h c (by simp)
    show wordsGo [] (c :: cs) = []
    simp only [wordsGo, hc, if_pos rfl, if_true]
    exact ih fun d hd => h d (by simp [hd])

theorem words_append_all_space {u s : List Char} (h : ∀ c ∈ s, isSpace c = true) :
    words (u ++ s) = words u := by
  cases s with
  | nil => simp
  | cons c s' =>
    rw [words_append_space c (h c (by simp))]
    have h2 : words s' = [] := words_all_space (fun d hd => h d (by simp [hd]))
    rw [h2, List.append_nil]

theorem words_trimLeft (l : List Char) : words (trimLeft l) = words l := by
  unfold trimLeft
  induction l with
  | nil => rfl
  | cons c cs ih =>
    by_cases hc : isSpace c = true
    · rw [List.dropWhile_cons, if_pos hc, ih, words_cons_space c hc]
    · rw [List.dropWhile_cons, if_neg (by simp [hc])]

theorem words_trimRight (l : List Char) : words (trimRight l) = words l := by
  have hdecomp : l = trimRight l ++ (l.reverse.takeWhile isSpace).reverse := by
    unfold trimRight
    conv_lhs => rw [← List.reverse_reverse l,
      ← List.takeWhile_append_dropWhile (p := isSpace) (l := l.reverse)]
    rw [List.reverse_append]
  conv_rhs => rw [hdecomp]
  rw [words_append_all_space]
  intro c hc
  rw [List.mem_reverse] at hc
  exact List.mem_takeWhile_imp hc

theorem words_pyStrip (l : List Char) : words (pyStrip l) = words l := by
  unfold pyStrip
  rw [words_trimRight, words_trimLeft]

theorem wordsGo_collapse : ∀ (N : Nat) (s : List Char), s.length ≤ N →
    (∀ cur, wordsGo cur (collapseGo false s) = wordsGo cur s) ∧
    (wordsGo [] (collapseGo true s) = wordsGo [] s) := by
  intro N
  induction N with
  | zero =>
    intro s h
    have hnil : s = [] := List.length_eq_zero.mp (Nat.le_zero.mp h)
    subst hnil
    exact ⟨fun cur => rfl, rfl⟩
  | succ n ih =>
    intro s hlen
    constructor
    · intro cur
      cases s with
      | nil => rfl
      | cons c cs =>
        have hlen' : cs.length ≤ n := by simp at hlen; omega
        by_cases hc : isSpace c = true
        · rw [show collapseGo false (c :: cs) = ' ' :: collapseGo true cs from by
            simp [collapseGo, hc]]
          by_cases hcur : cur = []
          · rw [show wordsGo cur (' ' :: collapseGo true cs)
                = wordsGo [] (collapseGo true cs) from by simp [wordsGo, hcur, isSpace]]
            rw [show wordsGo cur (c :: cs) = wordsGo [] cs from by simp [wordsGo, hc, hcur]]
            exact (ih cs hlen').2
          · rw [show wordsGo cur (' ' :: collapseGo true cs)
                = cur.reverse :: wordsGo [] (collapseGo true cs) from by
              simp [wordsGo, hcur, isSpace]]
            rw [show wordsGo cur (c :: cs) = cur.reverse :: wordsGo [] cs from by
              simp [wordsGo, hc, hcur]]
            rw [(ih cs hlen').2]
        · rw [show collapseGo false (c :: cs) = c :: collapseGo false cs from by
            simp [collapseGo, hc]]
          rw [show wordsGo cur (c :: collapseGo false cs)
              = wordsGo (c :: cur) (collapseGo false cs) from by simp [wordsGo, hc]]
          rw [show wordsGo cur (c :: cs) = wordsGo (c :: cur) cs from by simp [wordsGo, hc]]
          exact (ih cs hlen').1 (c :: cur)
    · cases s with
      | nil => rfl
      | cons c cs =>
        have hlen' : cs.length ≤ n := by simp at hlen; omega
        by_cases hc : isSpace c = true
        · rw [show collapseGo true (c :: cs) = collapseGo true cs from by
            simp [collapseGo, hc]]
          rw [show wordsGo ([] : List Char) (c :: cs) = wordsGo [] cs from by
            simp [wordsGo, hc]]
          exact (ih cs hlen').2
        · rw [show collapseGo true (c :: cs) = c :: collapseGo false cs from by
            simp [collapseGo, hc]]
          rw [show wordsGo ([] : List Char) (c :: collapseGo false cs)
              = wordsGo [c] (collapseGo false cs) from by simp [wordsGo, hc]]
          rw [show wordsGo ([] : List Char) (c :: cs) = wordsGo [c] cs from by
            simp [wordsGo, hc]]
          exact (ih cs hlen').1 [c]

theorem words_collapse (s : List Char) : words (collapseWS s) = words s :=
  (wordsGo_collapse s.length s (Nat.le_refl _)).1 []

theorem words_titleOf (g : List Char) : words (titleOf g) = words g := by
  unfold titleOf
  rw [words_pyStrip, words_collapse, words_pyStrip]

theorem sliceL_split (T : List Char) {a b : Nat} (hab : a ≤ b) :
    T.drop a = sliceL T a b ++ T.drop b := by
  unfold sliceL
  conv_lhs => rw [← List.take_append_drop (b - a) (T.drop a)]
  rw [List.drop_drop, show a + (b - a) = b from by omega]

theorem words_split (T : List Char) {a b : Nat} (hab : a ≤ b) (hbT : b ≤ T.length)
    (hb : b = T.length ∨ T[b]? = some '\n') :
    words (T.drop a) = words (sliceL T a b) ++ words (T.drop b) := by
  conv_lhs => rw [sliceL_split T hab]
  rcases hb with hb | hb
  · subst hb
    rw [List.drop_length, List.append_nil]
    simp [words, wordsGo]
  · cases hdrop : T.drop b with
    | nil =>
      rw [← List.head?_drop, hdrop] at hb
      simp at hb
    | cons x rest =>
      have hx : x = '\n' := by
        rw [← List.head?_drop, hdrop] at hb
        simpa using hb
      rw [hx, words_append_space '\n' (by decide), words_cons_space '\n' (by decide)]

theorem sliceL_to_end (T : List Char) (e : Nat) : sliceL T e T.length = T.drop e := by
  unfold sliceL
  rw [show T.length - e = (T.drop e).length from (List.length_drop e T).symm, List.take_length]

theorem buildItems_words (T : List Char) : ∀ (rest : List (Nat × Nat)) (s e q : Nat),
    MatchesFrom T q ((s, e) :: rest) →
    words (sectionsConcat (buildItems T ((s, e) :: rest))) = words (T.drop s) := by
  intro rest
  induction rest with
  | nil =>
    intro s e q hm
    obtain ⟨hqs, hse, heT, hsOr, heOr, -⟩ := hm
    show words (titleOf (sliceL T s e) ++ '\n' ::
        (pyStrip (sliceL T e T.length) ++ '\n' :: sectionsConcat [])) = words (T.drop s)
    rw [words_append_space '\n' (by decide), words_append_space '\n' (by decide)]
    rw [words_titleOf, words_pyStrip, sliceL_to_end]
    rw [words_split T (Nat.le_of_lt hse) heT heOr]
    simp [words, wordsGo, sectionsConcat]
  | cons m2 rest2 ih =>
    intro s e q hm
    obtain ⟨s2, e2⟩ := m2
    obtain ⟨hqs, hse, heT, hsOr, heOr, hm2⟩ := hm
    have hes2 : e ≤ s2 := hm2.1
    have hs2e2 : s2 < e2 := hm2.2.1
    have hs2T : s2 ≤ T.length := Nat.le_of_lt (Nat.lt_of_lt_of_le hs2e2 hm2.2.2.1)
    have hs2nl : T[s2]? = some '\n' := by
      rcases hm2.2.2.2.1 with h0 | h0
      · exfalso; omega
      · exact h0
    show words (titleOf (sliceL T s e) ++ '\n' ::
        (pyStrip (sliceL T e s2) ++ '\n' ::
          sectionsConcat (buildItems T ((s2, e2) :: rest2)))) = words (T.drop s)
    rw [words_append_space '\n' (by decide), words_append_space '\n' (by decide)]
    rw [words_titleOf, words_pyStrip]
    rw [ih s2 e2 e hm2]
    rw [words_split T (Nat.le_of_lt hse) heT heOr,
        words_split T hes2 hs2T (Or.inr hs2nl)]

/-! ### Claims -/

/-- C2: on the specification's worked example the splitter returns exactly
two sections, `RULE 1 Scoring`/`Body A.` and `RULE 2 Fouls`/`Body B.`, both
with `start_page = 1`. -/
theorem claim2_worked_example :
    split_into_sections exC2doc =
      [{ title := "RULE 1 Scoring".data, content := "Body A.".data, start_page := some 1 },
       { title := "RULE 2 Fouls".data, content := "Body B.".data, start_page := some 1 }] := by
  decide

/-- C3: whenever the heading scan finds no match, the splitter returns the
single fallback section: title `Full Document`, the first 5000 characters
of the dash-normalized text, `start_page = 1`. -/
theorem claim3_fallback (t : List Char)
    (h : findMatches (normalizeDashes t) = []) :
    split_into_sections t =
      [{ title := "Full Document".data,
         content := (normalizeDashes t).take 5000, start_page := some 1 }] := by
  rw [split_match, h]

theorem claim3_witness :
    findMatches (normalizeDashes "hello".data) = [] ∧
    split_into_sections "hello".data =
      [{ title := "Full Document".data,
         content := (normalizeDashes "hello".data).take 5000, start_page := some 1 }] :=
  ⟨by decide, claim3_fallback "hello".data (by decide)⟩

/-- C8: the core functions are total and never degenerate — the splitter
always returns at least one section on any input string, and the finisher
produces exactly one finished record per section, so the whole pipeline
yields a well-formed, non-empty result for every input. -/
theorem claim8_totality (t : List Char) (pages : List (List Char)) (pfx : List Char) :
    1 ≤ (split_into_sections t).length ∧
    (finishSections pfx (split_into_sections t)).length = (split_into_sections t).length ∧
    1 ≤ (processPure pages pfx).length := by
  have hsplit : ∀ u : List Char, 1 ≤ (split_into_sections u).length := by
    intro u
    rw [split_match]
    cases h : findMatches (normalizeDashes u) with
    | nil => simp
    | cons m ms => simp [buildItems_length]
  refine ⟨hsplit t, finishGo_length pfx 1 _, ?_⟩
  unfold processPure finishSections
  rw [finishGo_length]
  exact hsplit _

/-- C9: the pipeline is deterministic — identical page-text input produces
identical output, and the splitter's result is a function of the
(dash-normalized) document alone, hence of heading-match order in it. -/
theorem claim9_deterministic :
    (∀ pages pfx, processPure pages pfx = processPure pages pfx) ∧
    (∀ t1 t2, normalizeDashes t1 = normalizeDashes t2 →
      split_into_sections t1 = split_into_sections t2) := by
  refine ⟨fun _ _ => rfl, fun t1 t2 h => ?_⟩
  rw [split_match, split_match, h]

theorem claim9_witness :
    split_into_sections "RULE 1 x—y".data = split_into_sections "RULE 1 x - y".data :=
  claim9_deterministic.2 _ _ (by decide)

/-- C10: page recovery inspects only the last occurrence of `"[PAGE"`
before the heading's start; if the marker there is malformed within the
scanned range, `start_page` is `none` even when an earlier well-formed
marker (at offset `q`) exists before the heading. -/
theorem claim10_malformed_last_tag (t : List Char) (s p q : Nat)
    (h1 : rfindSub pageTag ((normalizeDashes t).take s) = some p)
    (h2 : searchPage (sliceL (normalizeDashes t) p (s + 1)) = none)
    (h3 : parsePageAt ((normalizeDashes t).drop q) ≠ none)
    (h4 : q + pageTag.length ≤ s) :
    pageFor (normalizeDashes t) s = none := by
  unfold pageFor
  rw [h1]
  exact h2

theorem claim10_witness :
    pageFor (normalizeDashes exC10doc) 16 = none ∧
    parsePageAt ((normalizeDashes exC10doc).drop 0) = some 1 ∧
    (split_into_sections exC10doc).map SectionR.start_page = [none] :=
  ⟨claim10_malformed_last_tag exC10doc 16 11 0 (by decide) (by decide) (by decide) (by decide),
   by decide, by decide⟩

/-- C4 (counterexample): in `exC4doc` a well-formed marker `[PAGE 1]`
precedes the heading match at offset 16, yet the produced section's
`start_page` is `none` — refuting "start_page … is null when no marker
precedes the match". -/
theorem claim4_counterexample :
    split_into_sections exC4doc =
      [{ title := "RULE 1 T".data, content := "body".data, start_page := none }] ∧
    parsePageAt ((normalizeDashes exC4doc).drop 0) = some 1 ∧
    findMatches (normalizeDashes exC4doc) = [(16, 25)] ∧
    0 + pageTag.length ≤ 16 := by
  decide

/-- C4 (amended): each section's `start_page` comes from `pageFor` at its
heading's start offset; `pageFor` is `none` when no `"[PAGE"` occurrence
lies before the heading, and when the backward search finds offset `p` and
the marker there parses as `[PAGE n]`, the result is `n` — and `p` is the
occurrence closest to the heading: every `"[PAGE"` occurrence fitting
before the heading start is at offset `≤ p`. -/
theorem claim4_page_recovery (t : List Char) :
    (∀ m ms, findMatches (normalizeDashes t) = m :: ms →
      (split_into_sections t).map SectionR.start_page
        = (m :: ms).map (fun x => pageFor (normalizeDashes t) x.1)) ∧
    (∀ s, rfindSub pageTag ((normalizeDashes t).take s) = none →
      pageFor (normalizeDashes t) s = none) ∧
    (∀ s p n, rfindSub pageTag ((normalizeDashes t).take s) = some p →
      searchPage (sliceL (normalizeDashes t) p (s + 1)) = some n →
      pageFor (normalizeDashes t) s = some n ∧
      ∀ q, pageTag.isPrefixOf ((normalizeDashes t).drop q) →
        q + pageTag.length ≤ s → q ≤ p) := by
  refine ⟨fun m ms h => ?_, fun s h => ?_, fun s p n h1 h2 => ⟨?_, fun q hq hle => ?_⟩⟩
  · rw [split_eq_buildItems h, buildItems_map_page]
  · unfold pageFor; rw [h]
  · unfold pageFor; rw [h1]; exact h2
  · refine (rfindSub_some_spec (by decide) h1).2 q ?_
    unfold occursAtB
    rw [List.drop_take]
    rw [List.isPrefixOf_iff_prefix] at hq ⊢
    obtain ⟨w, hw⟩ := hq
    rw [← hw, List.take_append_eq_append_take,
        List.take_of_length_le (by have h5 : pageTag.length = 5 := rfl; omega)]
    exact ⟨_, rfl⟩

theorem claim4_witness :
    (split_into_sections ex123doc).map SectionR.start_page = [some 2] := by
  have h := (claim4_page_recovery ex123doc).1 (29, 44) [] (by decide)
  rw [h]
  decide

/-- C6: the Record Finisher preserves the section count, assigns each
section the id `{prefix}-rule-{k}` for its 1-based position `k`, and gives
it the snippet the specification describes (whitespace runs collapsed to
single spaces, trimmed, truncated to 200 characters, one truncation marker
appended iff the normalized content exceeded 200 characters); every
snippet therefore has length at most 201. -/
theorem claim6_record_finisher (pfx : List Char) (secs : List SectionR) :
    (finishSections pfx secs).length = secs.length ∧
    (∀ i : Nat, (finishSections pfx secs)[i]? = (secs[i]?).map (fun s =>
      { id := pfx ++ "-rule-".data ++ natDecimal (i + 1), title := s.title,
        content := s.content, snippet := snippetSpec s.content,
        start_page := s.start_page })) ∧
    (∀ f ∈ finishSections pfx secs, f.snippet.length ≤ 201) := by
  refine ⟨finishGo_length pfx 1 secs, fun i => ?_, fun f hf => finishGo_snippet_le pfx secs 1 f hf⟩
  unfold finishSections
  rw [finishGo_getElem? pfx secs 1 i, show 1 + i = i + 1 from by omega]
  simp only [make_snippet_eq_spec]

theorem claim6_witness :
    (finishSections "womens_soccer".data
        [{ title := "T".data, content := "  a   b  ".data, start_page := none }]).length = 1 ∧
    (finishSections "womens_soccer".data
        [{ title := "T".data, content := "  a   b  ".data, start_page := none }])[0]?
      = some { id := "womens_soccer-rule-1".data, title := "T".data,
               content := "  a   b  ".data, snippet := "a b".data, start_page := none } := by
  have h := claim6_record_finisher "womens_soccer".data
    [{ title := "T".data, content := "  a   b  ".data, start_page := none }]
  refine ⟨h.1, ?_⟩
  rw [h.2.1 0]
  decide

/-- C5 (counterexample): when a page's own text contains a marker-shaped
string, the joined output contains more than `N` page markers, so the claim
as stated fails: for the single page `"[PAGE 2]"` the output holds the
markers `[1, 2]`, not exactly one marker. -/
theorem claim5_counterexample :
    ¬ (markerNums (join_pages ["[PAGE 2]".data])
        = List.range' 1 (["[PAGE 2]".data].length)) := by
  decide

/-- C5 (amended): provided no page's text contains the marker head
`"[PAGE"`, the Page Joiner's output contains exactly `N` well-formed page
markers, with numbers `1, 2, …, N` in order (empty pages included), and
the full text of every page appears in the output unmodified and in the
original order (the latter unconditionally). -/
theorem claim5_page_joiner (pages : List (List Char))
    (h : ∀ p ∈ pages, ∀ q, q < p.length → pageTag.isPrefixOf (p.drop q) = false) :
    markerNums (join_pages pages) = List.range' 1 pages.length ∧
    pagesInOrder pages (join_pages pages) :=
  ⟨markerNums_join pages 1 h, pagesInOrder_join pages⟩

theorem claim5_witness :
    markerNums (join_pages ["ab".data, [], "c".data]) = List.range' 1 3 ∧
    pagesInOrder ["ab".data, [], "c".data] (join_pages ["ab".data, [], "c".data]) :=
  claim5_page_joiner ["ab".data, [], "c".data] (by decide)

/-- C7: the heading matches found in the (normalized) document are chained
and non-overlapping — each match satisfies `start < end ≤ next start`
(`MatchesFrom`, which also records that matches begin at offset 0 or at a
newline and end at a newline or at the document end) — and the splitter's
sections correspond one-to-one, in order, to those matches: the i-th
section's title is derived from the i-th match's slice, so the matched
title text lies outside every content slice. -/
theorem claim7_order_nonoverlap (t : List Char) :
    MatchesFrom (normalizeDashes t) 0 (findMatches (normalizeDashes t)) ∧
    (∀ m ms, findMatches (normalizeDashes t) = m :: ms →
      (split_into_sections t).map SectionR.title
        = (m :: ms).map (fun x => titleOf (sliceL (normalizeDashes t) x.1 x.2))) := by
  constructor
  · exact goF_spec (normalizeDashes t) _ _ 0 true rfl (Nat.zero_le _) (fun _ => rfl)
  · intro m ms h
    rw [split_eq_buildItems h, buildItems_map_title]

theorem claim7_witness :
    (split_into_sections exC2doc).map SectionR.title
      = [((20 : Nat), (36 : Nat)), (44, 58)].map
          (fun x => titleOf (sliceL (normalizeDashes exC2doc) x.1 x.2)) :=
  (claim7_order_nonoverlap exC2doc).2 (20, 36) [(44, 58)] (by decide)

/-- C1 (counterexample): the splitter drops the text that precedes the
first heading match, so concatenating the sections (titles together with
contents) does not reconstruct the document modulo whitespace: on
`exC1doc` the word `Intro` is lost. -/
theorem claim1_counterexample :
    words (sectionsConcat (split_into_sections exC1doc))
      ≠ words (normalizeDashes exC1doc) ∧
    "Intro".data ∈ words (normalizeDashes exC1doc) ∧
    "Intro".data ∉ words (sectionsConcat (split_into_sections exC1doc)) := by
  decide

/-- C1 (amended): when the document has at least one heading match,
concatenating the splitter's sections in order — each heading title
together with its content, newline-separated — reconstructs, modulo the
whitespace trimming and collapsing rules (i.e. word for word), the
dash-normalized document from the first heading match's start offset to
the end.  No non-whitespace bytes from the first heading onward are lost
or duplicated; the text before the first heading match is dropped. -/
theorem claim1_reconstruction (t : List Char) (s e : Nat) (ms : List (Nat × Nat))
    (h : findMatches (normalizeDashes t) = (s, e) :: ms) :
    words (sectionsConcat (split_into_sections t))
      = words ((normalizeDashes t).drop s) := by
  rw [split_eq_buildItems h]
  have hm : MatchesFrom (normalizeDashes t) 0 ((s, e) :: ms) := by
    rw [← h]
    exact goF_spec _ _ _ 0 true rfl (Nat.zero_le _) (fun _ => rfl)
  exact buildItems_words _ ms s e 0 hm

theorem claim1_witness :
    words (sectionsConcat (split_into_sections exC2doc))
      = words ((normalizeDashes exC2doc).drop 20) :=
  claim1_reconstruction exC2doc 20 36 [(44, 58)] (by decide)

end Playbook
